import Mathlib

/-!
Verification of the Ascon-AEAD128 reference implementation (`src/ascon128.py`)
against its natural-language specification.

The embedding below mirrors the Python source: the 320-bit state is five
unbounded naturals (Python ints) that the algorithm keeps below `2 ^ 64`,
bitstrings (Python strings of zero and one characters) are `List Bool` in
MSB-first order,
and byte strings are `List Nat` whose entries are below 256.
-/

namespace Ascon

/-- Mask for 64 bits (`MASK64 = (1 << 64) - 1` in the source). -/
def MASK64 : Nat := (1 <<< 64) - 1

/-- The Ascon state: five 64-bit unsigned words `S0 .. S4`
(`State = [S0, S1, S2, S3, S4]` in the source). -/
structure AState where
  s0 : Nat
  s1 : Nat
  s2 : Nat
  s3 : Nat
  s4 : Nat
deriving DecidableEq

/-- Right rotation on a 64-bit word (`rotr` in the source):
`r %= 64; ((val >> r) | ((val << (64 - r)) & MASK64)) & MASK64`. -/
def rotr (val r : Nat) : Nat :=
  let r := r % 64
  ((val >>> r) ||| ((val <<< (64 - r)) &&& MASK64)) &&& MASK64

/-- Constant-addition layer table (`CONST` in the source): 16 entries. -/
def CONST : List Nat :=
  [0x3C, 0x2D, 0x1E, 0x0F, 0xF0, 0xE1, 0xD2, 0xC3,
   0xB4, 0xA5, 0x96, 0x87, 0x78, 0x69, 0x5A, 0x4B]

/-- Source lookup `get_round_constant(rnd, i) = CONST[16 - rnd + i]`.
For `rnd ≤ 16` the Lean truncated subtraction agrees with the Python index. -/
def get_round_constant (rnd i : Nat) : Nat :=
  CONST.getD (16 - rnd + i) 0

/-- The 5-bit Ascon S-box (`s_box_compute` in the source), on a list of five
bits; Python `&` binds tighter than `^`, and every output is masked by `& 1`. -/
def s_box_compute (X : List Nat) : List Nat :=
  match X with
  | [x0, x1, x2, x3, x4] =>
    [(x4 &&& x1 ^^^ x3 ^^^ x2 &&& x1 ^^^ x2 ^^^ x1 &&& x0 ^^^ x1 ^^^ x0) &&& 1,
     (x4 ^^^ x3 &&& x2 ^^^ x3 &&& x1 ^^^ x3 ^^^ x2 &&& x1 ^^^ x2 ^^^ x1 ^^^ x0) &&& 1,
     (x4 &&& x3 ^^^ x4 ^^^ x2 ^^^ x1 ^^^ 1) &&& 1,
     (x4 &&& x0 ^^^ x4 ^^^ x3 &&& x0 ^^^ x3 ^^^ x2 ^^^ x1 ^^^ x0) &&& 1,
     (x4 &&& x1 ^^^ x4 ^^^ x3 ^^^ x1 &&& x0 ^^^ x1) &&& 1]
  | _ => []

/-- Value of the Python expression `x & ~(1 << k)` on a nonnegative `x`:
`x` with bit `k` cleared. -/
def clear_bit (x k : Nat) : Nat :=
  ((x >>> (k + 1)) <<< (k + 1)) ||| (x &&& ((1 <<< k) - 1))

/-- One column of the substitution layer (loop body over `k` in
`ascon_permutation`): extract bit `k` of each word, apply the S-box, and
scatter the outputs back: `State[j] = (State[j] & ~(1 << k)) | ((out[j] & 1) << k)`. -/
def sbox_column (s : AState) (k : Nat) : AState :=
  let inp := [(s.s0 >>> k) &&& 1, (s.s1 >>> k) &&& 1, (s.s2 >>> k) &&& 1,
              (s.s3 >>> k) &&& 1, (s.s4 >>> k) &&& 1]
  let out := s_box_compute inp
  ⟨clear_bit s.s0 k ||| ((out.getD 0 0 &&& 1) <<< k),
   clear_bit s.s1 k ||| ((out.getD 1 0 &&& 1) <<< k),
   clear_bit s.s2 k ||| ((out.getD 2 0 &&& 1) <<< k),
   clear_bit s.s3 k ||| ((out.getD 3 0 &&& 1) <<< k),
   clear_bit s.s4 k ||| ((out.getD 4 0 &&& 1) <<< k)⟩

/-- The substitution layer of one round: the S-box applied vertically for each
bit position 0 to 63. -/
def sbox_layer (s : AState) : AState :=
  (List.range 64).foldl sbox_column s

/-- Linear diffusion layer (`linear_diffusion_layer` in the source). -/
def linear_diffusion_layer (s : AState) : AState :=
  ⟨(s.s0 ^^^ rotr s.s0 19 ^^^ rotr s.s0 28) &&& MASK64,
   (s.s1 ^^^ rotr s.s1 61 ^^^ rotr s.s1 39) &&& MASK64,
   (s.s2 ^^^ rotr s.s2 1 ^^^ rotr s.s2 6) &&& MASK64,
   (s.s3 ^^^ rotr s.s3 10 ^^^ rotr s.s3 17) &&& MASK64,
   (s.s4 ^^^ rotr s.s4 7 ^^^ rotr s.s4 41) &&& MASK64⟩

/-- Body of one permutation round: constant addition into `S2`, then the
substitution layer, then linear diffusion. -/
def ascon_round (rounds i : Nat) (s : AState) : AState :=
  linear_diffusion_layer (sbox_layer
    ⟨s.s0, s.s1, s.s2 ^^^ get_round_constant rounds i, s.s3, s.s4⟩)

/-- Source permutation `ascon_permutation(State, rounds)`: `rounds` rounds, the
round index `i` running from 0. -/
def ascon_permutation (s : AState) (rounds : Nat) : AState :=
  (List.range rounds).foldl (fun t i => ascon_round rounds i t) s

/-- The `S ← IV ‖ K ‖ N` loading step of `ascon_initialize`:
`S0 = IV = 0x00001000808C0001`, `S1, S2` the numeric upper and lower 64-bit
halves of the key, `S3, S4` those of the nonce. -/
def init_load (K N : Nat) : AState :=
  ⟨0x00001000808C0001,
   (K >>> 64) &&& MASK64, K &&& MASK64,
   (N >>> 64) &&& MASK64, N &&& MASK64⟩

/-- Source initialization routine: load `IV ‖ K ‖ N`, permute
12 rounds, then XOR the key halves into `S3, S4`. -/
def ascon_initialize (K N : Nat) : AState :=
  let s := ascon_permutation (init_load K N) 12
  ⟨s.s0, s.s1, s.s2, s.s3 ^^^ ((K >>> 64) &&& MASK64), s.s4 ^^^ (K &&& MASK64)⟩

/-- Bits of one byte, MSB first (Python `f"{byte:08b}"` for a byte below 256). -/
def byte_to_bits (b : Nat) : List Bool :=
  [b.testBit 7, b.testBit 6, b.testBit 5, b.testBit 4,
   b.testBit 3, b.testBit 2, b.testBit 1, b.testBit 0]

/-- Source helper `bytes_to_bits`: concatenation of the 8-bit MSB-first
expansions of the bytes. -/
def bytes_to_bits : List Nat → List Bool
  | [] => []
  | b :: bs => byte_to_bits b ++ bytes_to_bits bs

/-- Value of a bitstring read MSB-first (Python `int(block, 2)`). -/
def bits_to_int (X : List Bool) : Nat :=
  X.foldl (fun a b => 2 * a + (if b then 1 else 0)) 0

/-- Big-endian byte-string value (Python `int.from_bytes(b, "big")`, used by
the KAT harness to turn key and nonce bytes into the integers passed to
`ascon_aead128_enc`). -/
def bytes_to_int_be (b : List Nat) : Nat :=
  b.foldl (fun a x => 256 * a + x) 0

/-- Python `i.to_bytes(len, "big")`: fixed-width big-endian bytes. -/
def int_to_bytes (n len : Nat) : List Nat :=
  (List.range len).map (fun i => (n >>> (8 * (len - 1 - i))) &&& 0xFF)

/-- Source helper `int128_to_bytes(i) = i.to_bytes(16, "big")`. -/
def int128_to_bytes (i : Nat) : List Nat :=
  int_to_bytes i 16

/-- Source padding `pad(X, r)`: `pad_len = r - (len(X) % r)`; append one `1`
bit and `pad_len - 1` zero bits. -/
def pad (X : List Bool) (r : Nat) : List Bool :=
  X ++ [true] ++ List.replicate (r - X.length % r - 1) false

/-- Source parser `parse_input(X, r)`: `l = len(X) // r` full blocks
`X[i*r : (i+1)*r]`, then the remaining bits `X[l*r :]` as the last block. -/
def parse_input (X : List Bool) (r : Nat) : List (List Bool) :=
  let l := X.length / r
  ((List.range l).map (fun i => (X.drop (i * r)).take r)) ++ [X.drop (l * r)]

/-- The two XORs absorbing one rate block into `S0, S1`
(`State[0] ^= (block_int >> 64) & MASK64; State[1] ^= block_int & MASK64`). -/
def absorb_rate (s : AState) (block_int : Nat) : AState :=
  ⟨s.s0 ^^^ ((block_int >>> 64) &&& MASK64), s.s1 ^^^ (block_int &&& MASK64),
   s.s2, s.s3, s.s4⟩

/-- The domain-separation step (`State[4] ^= 1` in the source). -/
def ds_step (s : AState) : AState :=
  ⟨s.s0, s.s1, s.s2, s.s3, s.s4 ^^^ 1⟩

/-- Loop body of `process_associated_data`: absorb one 128-bit block into the
rate and permute 8 rounds. -/
def ad_block_step (s : AState) (block : List Bool) : AState :=
  ascon_permutation (absorb_rate s (bits_to_int block)) 8

/-- Source routine `process_associated_data(State, A)`: empty `A` only sets the
domain-separation bit; otherwise split into 128-bit blocks, pad the last,
absorb-and-permute each, then set the domain-separation bit `S4 ^= 1`. -/
def process_associated_data (s : AState) (A : List Bool) : AState :=
  if A.length = 0 then ds_step s
  else
    let blocks := parse_input A 128
    let blocks := blocks.dropLast ++ [pad (blocks.getLastD []) 128]
    ds_step (blocks.foldl ad_block_step s)

/-- Loop body for full plaintext blocks in `process_plaintext`: absorb into
the rate, emit `(S0 << 64) | S1` as 16 big-endian bytes, permute 8 rounds. -/
def pt_full_step (acc : AState × List (List Nat)) (block : List Bool) :
    AState × List (List Nat) :=
  let s := absorb_rate acc.1 (bits_to_int block)
  let ct := int128_to_bytes ((s.s0 <<< 64) ||| s.s1)
  (ascon_permutation s 8, acc.2 ++ [ct])

/-- Source routine `process_plaintext(State, P)`: process the full 128-bit
blocks, then absorb the padded last block without permuting; if the last block
is nonempty, emit the rate truncated to `len(last) // 8` bytes. -/
def process_plaintext (s : AState) (P : List Bool) : AState × List (List Nat) :=
  let blocks := parse_input P 128
  let l := (blocks.getLastD []).length
  let sc := blocks.dropLast.foldl pt_full_step (s, [])
  let s2 := absorb_rate sc.1 (bits_to_int (pad (blocks.getLastD []) 128))
  if 0 < l then
    (s2, sc.2 ++ [(int128_to_bytes ((s2.s0 <<< 64) ||| s2.s1)).take (l / 8)])
  else (s2, sc.2)

/-- Source finalization: XOR the key halves into `S2, S3`,
permute 12 rounds, XOR the key halves into `S3, S4`, and serialize
`(T0 << 64) | T1` as 16 big-endian bytes. -/
def finalize (s : AState) (K : Nat) : List Nat :=
  let s := ⟨s.s0, s.s1, s.s2 ^^^ ((K >>> 64) &&& MASK64),
            s.s3 ^^^ (K &&& MASK64), s.s4⟩
  let s := ascon_permutation s 12
  let T0 := s.s3 ^^^ ((K >>> 64) &&& MASK64)
  let T1 := s.s4 ^^^ (K &&& MASK64)
  int128_to_bytes ((T0 <<< 64) ||| T1)

/-- Source encryption `ascon_aead128_enc(K, N, A, P)`, with `A` and `P` given as
byte strings (the KAT harness path): convert to bitstrings, initialize,
process associated data, process plaintext, finalize. -/
def ascon_aead128_enc (K N : Nat) (A P : List Nat) :
    List (List Nat) × List Nat :=
  let s := ascon_initialize K N
  let s := process_associated_data s (bytes_to_bits A)
  let sc := process_plaintext s (bytes_to_bits P)
  (sc.2, finalize sc.1 K)

/-- Well-formed state: all five words are 64-bit values. -/
def wf (s : AState) : Prop :=
  s.s0 < 2 ^ 64 ∧ s.s1 < 2 ^ 64 ∧ s.s2 < 2 ^ 64 ∧ s.s3 < 2 ^ 64 ∧ s.s4 < 2 ^ 64

instance (s : AState) : Decidable (wf s) := by
  unfold wf
  infer_instance

/-- Spec-following definition, for comparison with the source: little-endian
value of a byte string (the byte order the spec prescribes for lane loading). -/
def bytes_to_int_le (b : List Nat) : Nat :=
  b.foldr (fun x a => 256 * a + x) 0

/-- Spec-following definition, for comparison with the source: fixed-width
little-endian serialization of an integer (the byte order the spec prescribes
for the two 8-byte tag halves). -/
def int_to_bytes_le (n len : Nat) : List Nat :=
  (List.range len).map (fun i => (n >>> (8 * i)) &&& 0xFF)

/-- Modelled from the spec: the repository ships no decryption code under
`src/`, so the ciphertext parser of decrypt-and-verify is modelled as the
mirror of `parse_input` on 16-byte ciphertext blocks. -/
def dec_parse (C : List Nat) : List (List Nat) :=
  let l := C.length / 16
  ((List.range l).map (fun i => (C.drop (i * 16)).take 16)) ++ [C.drop (l * 16)]

/-- Modelled from the spec: decrypt-and-verify processing of one full 16-byte
ciphertext block, the exact algorithmic dual of `pt_full_step`: XOR the
incoming ciphertext rate halves with `S0, S1` to recover the plaintext block,
replace the rate by the ciphertext halves, and permute 8 rounds. -/
def dec_full_step (s : AState) (Ci : List Nat) : AState × List Nat :=
  let cInt := bytes_to_int_be Ci
  let cUp := (cInt >>> 64) &&& MASK64
  let cLo := cInt &&& MASK64
  let Pi := int128_to_bytes (((s.s0 ^^^ cUp) <<< 64) ||| (s.s1 ^^^ cLo))
  (ascon_permutation ⟨cUp, cLo, s.s2, s.s3, s.s4⟩ 8, Pi)

/-- Modelled from the spec: decrypt-and-verify processing of the final partial
ciphertext block (`l < 16` bytes), the dual of the final step of
`process_plaintext`: recover the plaintext bytes by XORing the ciphertext with
the leading rate bytes, then absorb the `10*`-padded recovered block into the
rate without permuting. -/
def dec_last_step (s : AState) (Cn : List Nat) : AState × List Nat :=
  let l := Cn.length
  let rate := int128_to_bytes ((s.s0 <<< 64) ||| s.s1)
  let Pn := (List.range l).map (fun i => rate.getD i 0 ^^^ Cn.getD i 0)
  let padInt := bytes_to_int_be Pn * 2 ^ (128 - 8 * l) + 2 ^ (127 - 8 * l)
  (absorb_rate s padInt, Pn)

/-- Modelled from the spec: the ciphertext-block loop of decrypt-and-verify. -/
def dec_blocks (s : AState) : List (List Nat) → AState × List Nat
  | [] => (s, [])
  | [Cn] => dec_last_step s Cn
  | Ci :: rest =>
    let st := dec_full_step s Ci
    let res := dec_blocks st.1 rest
    (res.1, st.2 ++ res.2)

/-- Modelled from the spec: the constant-time tag comparison of
decrypt-and-verify, accumulating the OR of byte XOR differences. -/
def ct_compare (X Y : List Nat) : Bool :=
  (X.length == Y.length) &&
    (((X.zip Y).foldl (fun acc p => acc ||| (p.1 ^^^ p.2)) 0) == 0)

/-- Modelled from the spec: `decrypt(Key, Nonce, AD, CT, Tag)`, absent from
`src/`, as the exact algorithmic dual of `ascon_aead128_enc`: initialize,
process associated data, recover the plaintext from the ciphertext blocks,
re-derive the tag via `finalize`, compare tags, and release the plaintext only
on success. -/
def ascon_aead128_dec (K N : Nat) (A C T : List Nat) : Option (List Nat) :=
  let s := ascon_initialize K N
  let s := process_associated_data s (bytes_to_bits A)
  let r := dec_blocks s (dec_parse C)
  let Texp := finalize r.1 K
  if ct_compare Texp T then some r.2 else none

/-- The associated-data phase of `process_associated_data` before its final
domain-separation step: absorb nothing when `A` is empty, otherwise
absorb-and-permute every (last-padded) 128-bit block. -/
def ad_absorb_all (s : AState) (A : List Bool) : AState :=
  if A.length = 0 then s
  else
    let blocks := parse_input A 128
    let blocks := blocks.dropLast ++ [pad (blocks.getLastD []) 128]
    blocks.foldl ad_block_step s

/-- Spec-following variant of `finalize`, for comparison with the source: the
same state transformation, but with each 8-byte tag half serialized in
little-endian byte order as the spec prescribes. -/
def finalize_tag_le (s : AState) (K : Nat) : List Nat :=
  let s := ⟨s.s0, s.s1, s.s2 ^^^ ((K >>> 64) &&& MASK64),
            s.s3 ^^^ (K &&& MASK64), s.s4⟩
  let s := ascon_permutation s 12
  let T0 := s.s3 ^^^ ((K >>> 64) &&& MASK64)
  let T1 := s.s4 ^^^ (K &&& MASK64)
  int_to_bytes_le T0 8 ++ int_to_bytes_le T1 8

/-! ### Bit-arithmetic toolkit -/

lemma mask64_eq : MASK64 = 2 ^ 64 - 1 := by decide

lemma and_mask64 (x : Nat) : x &&& MASK64 = x % 2 ^ 64 := by
  rw [mask64_eq, Nat.and_pow_two_sub_one_eq_mod]

lemma and_mask64_lt (x : Nat) : x &&& MASK64 < 2 ^ 64 := by
  rw [and_mask64]
  exact Nat.mod_lt _ (by norm_num)

lemma and_255 (x : Nat) : x &&& 255 = x % 256 := by
  have h : (255 : Nat) = 2 ^ 8 - 1 := by norm_num
  rw [h, Nat.and_pow_two_sub_one_eq_mod]

lemma or_shiftRight (x y n : Nat) : (x ||| y) >>> n = (x >>> n) ||| (y >>> n) := by
  induction n with
  | zero => rfl
  | succ n ih =>
    rw [Nat.shiftRight_succ, Nat.shiftRight_succ, Nat.shiftRight_succ, ih,
      Nat.or_div_two]

lemma shiftLeft_shiftRight_self (a n : Nat) : (a <<< n) >>> n = a := by
  rw [Nat.shiftLeft_eq, Nat.shiftRight_eq_div_pow,
    Nat.mul_div_cancel _ (Nat.two_pow_pos n)]

lemma shiftLeft_or_eq_add {a b : Nat} (n : Nat) (hb : b < 2 ^ n) :
    (a <<< n) ||| b = a * 2 ^ n + b := by
  have hb0 : b >>> n = 0 := by
    rw [Nat.shiftRight_eq_div_pow]
    exact Nat.div_eq_of_lt hb
  have e1 : ((a <<< n) ||| b) >>> n = a := by
    rw [or_shiftRight, shiftLeft_shiftRight_self, hb0, Nat.or_zero]
  have e2 : ((a <<< n) ||| b) % 2 ^ n = b := by
    rw [← Nat.and_pow_two_sub_one_eq_mod, Nat.and_distrib_right,
      Nat.and_pow_two_sub_one_eq_mod, Nat.and_pow_two_sub_one_eq_mod,
      Nat.shiftLeft_eq, Nat.mul_mod_left, Nat.mod_eq_of_lt hb, Nat.zero_or]
  calc (a <<< n) ||| b
      = 2 ^ n * (((a <<< n) ||| b) >>> n) + ((a <<< n) ||| b) % 2 ^ n := by
        rw [Nat.shiftRight_eq_div_pow]
        exact (Nat.div_add_mod _ _).symm
    _ = a * 2 ^ n + b := by rw [e1, e2, Nat.mul_comm]

lemma or64_lt {a b : Nat} (ha : a < 2 ^ 64) (hb : b < 2 ^ 64) :
    (a <<< 64) ||| b < 2 ^ 128 := by
  rw [shiftLeft_or_eq_add 64 hb]
  have h1 : a * 2 ^ 64 + b < (a + 1) * 2 ^ 64 := by
    rw [Nat.succ_mul]
    omega
  have h2 : (a + 1) * 2 ^ 64 ≤ 2 ^ 64 * 2 ^ 64 := Nat.mul_le_mul_right _ (by omega)
  calc a * 2 ^ 64 + b < (a + 1) * 2 ^ 64 := h1
    _ ≤ 2 ^ 64 * 2 ^ 64 := h2
    _ = 2 ^ 128 := by norm_num

lemma hi64 {a b : Nat} (ha : a < 2 ^ 64) (hb : b < 2 ^ 64) :
    (((a <<< 64) ||| b) >>> 64) &&& MASK64 = a := by
  rw [shiftLeft_or_eq_add 64 hb, and_mask64, Nat.shiftRight_eq_div_pow]
  rw [Nat.mul_comm, Nat.mul_add_div (Nat.two_pow_pos 64), Nat.div_eq_of_lt hb,
    Nat.add_zero, Nat.mod_eq_of_lt ha]

lemma lo64 {a b : Nat} (hb : b < 2 ^ 64) : ((a <<< 64) ||| b) &&& MASK64 = b := by
  rw [shiftLeft_or_eq_add 64 hb, and_mask64, Nat.mul_comm,
    Nat.mul_add_mod, Nat.mod_eq_of_lt hb]

lemma split128 {x : Nat} (hx : x < 2 ^ 128) :
    (((x >>> 64) &&& MASK64) <<< 64) ||| (x &&& MASK64) = x := by
  have hdiv : x >>> 64 < 2 ^ 64 := by
    rw [Nat.shiftRight_eq_div_pow]
    apply Nat.div_lt_of_lt_mul
    calc x < 2 ^ 128 := hx
      _ = 2 ^ 64 * 2 ^ 64 := by norm_num
  rw [and_mask64 x, and_mask64 (x >>> 64), Nat.mod_eq_of_lt hdiv,
    shiftLeft_or_eq_add 64 (Nat.mod_lt _ (Nat.two_pow_pos 64)),
    Nat.shiftRight_eq_div_pow]
  rw [Nat.mul_comm]
  exact Nat.div_add_mod x (2 ^ 64)

lemma xor_cancel_left (a b : Nat) : a ^^^ (a ^^^ b) = b := by
  rw [← Nat.xor_assoc, Nat.xor_self, Nat.zero_xor]

lemma xor_shiftRight (x y n : Nat) : (x ^^^ y) >>> n = (x >>> n) ^^^ (y >>> n) := by
  induction n with
  | zero => rfl
  | succ n ih =>
    rw [Nat.shiftRight_succ, Nat.shiftRight_succ, Nat.shiftRight_succ, ih,
      Nat.xor_div_two]

/-! ### Bitstring and byte-string value lemmas -/

lemma bits_to_int_foldl (X : List Bool) (a : Nat) :
    X.foldl (fun a b => 2 * a + (if b then 1 else 0)) a
      = a * 2 ^ X.length + bits_to_int X := by
  induction X generalizing a with
  | nil => simp [bits_to_int]
  | cons x xs ih =>
    show List.foldl _ _ xs = _
    rw [ih]
    have hx : bits_to_int (x :: xs)
        = (2 * 0 + (if x then 1 else 0)) * 2 ^ xs.length + bits_to_int xs := by
      show List.foldl _ _ xs = _
      rw [ih]
    rw [hx]
    simp only [List.length_cons, pow_succ]
    ring

lemma bits_to_int_cons (x : Bool) (xs : List Bool) :
    bits_to_int (x :: xs)
      = (if x then 1 else 0) * 2 ^ xs.length + bits_to_int xs := by
  show List.foldl _ _ xs = _
  rw [bits_to_int_foldl]
  norm_num

lemma bits_to_int_append (X Y : List Bool) :
    bits_to_int (X ++ Y) = bits_to_int X * 2 ^ Y.length + bits_to_int Y := by
  show List.foldl _ _ (X ++ Y) = _
  rw [List.foldl_append]
  exact bits_to_int_foldl Y (bits_to_int X)

lemma bits_to_int_lt (X : List Bool) : bits_to_int X < 2 ^ X.length := by
  induction X with
  | nil => decide
  | cons x xs ih =>
    rw [bits_to_int_cons]
    have h2 : (2 : Nat) ^ (x :: xs).length = 2 * 2 ^ xs.length := by
      rw [List.length_cons, pow_succ, Nat.mul_comm]
    cases x <;> simp <;> omega

lemma bits_to_int_replicate_false (n : Nat) :
    bits_to_int (List.replicate n false) = 0 := by
  induction n with
  | zero => rfl
  | succ n ih => rw [List.replicate_succ, bits_to_int_cons, ih]; simp

lemma bits_to_int_one_zeros (m : Nat) :
    bits_to_int (true :: List.replicate m false) = 2 ^ m := by
  rw [bits_to_int_cons, bits_to_int_replicate_false, List.length_replicate]
  simp

lemma be_foldl (B : List Nat) (a : Nat) :
    B.foldl (fun a x => 256 * a + x) a
      = a * 256 ^ B.length + bytes_to_int_be B := by
  induction B generalizing a with
  | nil => simp [bytes_to_int_be]
  | cons b bs ih =>
    show List.foldl _ _ bs = _
    rw [ih]
    have hb : bytes_to_int_be (b :: bs)
        = (256 * 0 + b) * 256 ^ bs.length + bytes_to_int_be bs := by
      show List.foldl _ _ bs = _
      rw [ih]
    rw [hb]
    simp only [List.length_cons, pow_succ]
    ring

lemma be_cons (b : Nat) (bs : List Nat) :
    bytes_to_int_be (b :: bs) = b * 256 ^ bs.length + bytes_to_int_be bs := by
  show List.foldl _ _ bs = _
  rw [be_foldl]
  norm_num

lemma be_append (A B : List Nat) :
    bytes_to_int_be (A ++ B)
      = bytes_to_int_be A * 256 ^ B.length + bytes_to_int_be B := by
  show List.foldl _ _ (A ++ B) = _
  rw [List.foldl_append]
  exact be_foldl B (bytes_to_int_be A)

lemma be_lt (B : List Nat) (h : ∀ b ∈ B, b < 256) :
    bytes_to_int_be B < 256 ^ B.length := by
  induction B with
  | nil => decide
  | cons b bs ih =>
    rw [be_cons]
    have hb : b < 256 := h b (List.mem_cons_self b bs)
    have hbs := ih (fun x hx => h x (List.mem_cons_of_mem b hx))
    have h2 : (256 : Nat) ^ (b :: bs).length = 256 * 256 ^ bs.length := by
      rw [List.length_cons, pow_succ, Nat.mul_comm]
    rw [h2]
    calc b * 256 ^ bs.length + bytes_to_int_be bs
        < b * 256 ^ bs.length + 256 ^ bs.length := by omega
      _ = (b + 1) * 256 ^ bs.length := by ring
      _ ≤ 256 * 256 ^ bs.length := Nat.mul_le_mul_right _ (by omega)

lemma be_replicate_zero (n : Nat) :
    bytes_to_int_be (List.replicate n 0) = 0 := by
  induction n with
  | zero => rfl
  | succ n ih => rw [List.replicate_succ, be_cons, ih]; simp

set_option maxRecDepth 8000 in
lemma byte_to_bits_val : ∀ b < 256, bits_to_int (byte_to_bits b) = b := by decide

lemma bytes_to_bits_append (A B : List Nat) :
    bytes_to_bits (A ++ B) = bytes_to_bits A ++ bytes_to_bits B := by
  induction A with
  | nil => rfl
  | cons a as ih =>
    show byte_to_bits a ++ bytes_to_bits (as ++ B)
      = (byte_to_bits a ++ bytes_to_bits as) ++ bytes_to_bits B
    rw [ih, List.append_assoc]

lemma bytes_to_bits_length (B : List Nat) :
    (bytes_to_bits B).length = 8 * B.length := by
  induction B with
  | nil => rfl
  | cons b bs ih =>
    show (byte_to_bits b ++ bytes_to_bits bs).length = _
    rw [List.length_append, ih]
    simp [byte_to_bits]
    ring

lemma bytes_bits_val (B : List Nat) (h : ∀ b ∈ B, b < 256) :
    bits_to_int (bytes_to_bits B) = bytes_to_int_be B := by
  induction B with
  | nil => rfl
  | cons b bs ih =>
    show bits_to_int (byte_to_bits b ++ bytes_to_bits bs) = _
    rw [bits_to_int_append, bytes_to_bits_length,
      byte_to_bits_val b (h b (List.mem_cons_self b bs)),
      ih (fun x hx => h x (List.mem_cons_of_mem b hx)), be_cons]
    congr 2
    rw [pow_mul]
    norm_num

/-! ### Fixed-width big-endian serialization lemmas -/

lemma int_to_bytes_length (n len : Nat) : (int_to_bytes n len).length = len := by
  simp [int_to_bytes]

lemma int_to_bytes_succ (n L : Nat) :
    int_to_bytes n (L + 1) = ((n >>> (8 * L)) &&& 255) :: int_to_bytes n L := by
  unfold int_to_bytes
  rw [List.range_succ_eq_map, List.map_cons, List.map_map]
  have hhead : L + 1 - 1 - 0 = L := by omega
  rw [hhead]
  congr 1
  refine List.map_congr_left (fun i hi => ?_)
  simp only [Function.comp_apply]
  have h1 : L + 1 - 1 - (i + 1) = L - 1 - i := by omega
  have h2 : L - (i + 1) = L - 1 - i := by omega
  simp only [h1, h2]

lemma int_to_bytes_valid (n len : Nat) : ∀ b ∈ int_to_bytes n len, b < 256 := by
  intro b hb
  simp only [int_to_bytes, List.mem_map, List.mem_range] at hb
  obtain ⟨i, _, rfl⟩ := hb
  rw [and_255]
  exact Nat.mod_lt _ (by norm_num)

lemma pow256_eq (L : Nat) : (256 : Nat) ^ L = 2 ^ (8 * L) := by
  rw [pow_mul]
  norm_num

lemma be_int_to_bytes_mod (L n : Nat) :
    bytes_to_int_be (int_to_bytes n L) = n % 256 ^ L := by
  induction L with
  | zero => simp [int_to_bytes, bytes_to_int_be, Nat.mod_one]
  | succ L ih =>
    rw [int_to_bytes_succ, be_cons, int_to_bytes_length, ih]
    have h1 : (n >>> (8 * L)) &&& 255 = n / 256 ^ L % 256 := by
      rw [and_255, Nat.shiftRight_eq_div_pow, pow256_eq]
    have h2 : n % 256 ^ (L + 1) = n % 256 ^ L + 256 ^ L * (n / 256 ^ L % 256) := by
      rw [pow_succ]
      exact Nat.mod_mul
    rw [h1, h2]
    ring

lemma be_int_to_bytes {L n : Nat} (h : n < 256 ^ L) :
    bytes_to_int_be (int_to_bytes n L) = n := by
  rw [be_int_to_bytes_mod, Nat.mod_eq_of_lt h]

lemma testBit_255 (j : Nat) : Nat.testBit 255 j = decide (j < 8) := by
  have h : (255 : Nat) = 2 ^ 8 - 1 := by norm_num
  rw [h, Nat.testBit_two_pow_sub_one]

lemma int_to_bytes_mod (L n : Nat) :
    int_to_bytes (n % 256 ^ L) L = int_to_bytes n L := by
  unfold int_to_bytes
  apply List.map_congr_left
  intro i hi
  rw [List.mem_range] at hi
  apply Nat.eq_of_testBit_eq
  intro j
  rw [pow256_eq]
  simp only [Nat.testBit_and, Nat.testBit_shiftRight, Nat.testBit_mod_two_pow,
    testBit_255]
  rcases Nat.lt_or_ge j 8 with hj | hj
  · have hlt : 8 * (L - 1 - i) + j < 8 * L := by omega
    simp [hlt]
  · simp [Nat.lt_irrefl, show ¬(j < 8) from by omega]

lemma int_to_bytes_of_be :
    ∀ (B : List Nat), (∀ b ∈ B, b < 256) →
      int_to_bytes (bytes_to_int_be B) B.length = B := by
  intro B
  induction B with
  | nil => intro _; rfl
  | cons b bs ih =>
    intro h
    have hb : b < 256 := h b (List.mem_cons_self b bs)
    have hbs : ∀ x ∈ bs, x < 256 := fun x hx => h x (List.mem_cons_of_mem b hx)
    have hlt : bytes_to_int_be bs < 256 ^ bs.length := be_lt bs hbs
    show int_to_bytes (bytes_to_int_be (b :: bs)) (bs.length + 1) = b :: bs
    rw [int_to_bytes_succ]
    have hhead : (bytes_to_int_be (b :: bs) >>> (8 * bs.length)) &&& 255 = b := by
      rw [be_cons, Nat.shiftRight_eq_div_pow, ← pow256_eq,
        Nat.mul_comm b, Nat.mul_add_div (by positivity), Nat.div_eq_of_lt hlt,
        Nat.add_zero, and_255, Nat.mod_eq_of_lt hb]
    have htail : int_to_bytes (bytes_to_int_be (b :: bs)) bs.length = bs := by
      rw [← int_to_bytes_mod, be_cons, Nat.mul_comm b, Nat.mul_add_mod,
        Nat.mod_eq_of_lt hlt, ih hbs]
    rw [hhead, htail]

lemma int128_to_bytes_length (x : Nat) : (int128_to_bytes x).length = 16 :=
  int_to_bytes_length x 16

lemma int128_getD {x i : Nat} (h : i < 16) :
    (int128_to_bytes x).getD i 0 = (x >>> (8 * (15 - i))) &&& 255 := by
  rw [int128_to_bytes, int_to_bytes,
    List.getD_eq_getElem _ _ (by simpa using h)]
  simp [h]

/-! ### XOR and byte-extraction interaction -/

lemma byte_xor (x y k : Nat) :
    ((x ^^^ y) >>> k) &&& 255 = ((x >>> k) &&& 255) ^^^ ((y >>> k) &&& 255) := by
  rw [xor_shiftRight, Nat.and_xor_distrib_right]

lemma combine_xor {a b x : Nat} (hb : b < 2 ^ 64)
    (hx : x < 2 ^ 128) :
    ((a ^^^ ((x >>> 64) &&& MASK64)) <<< 64) ||| (b ^^^ (x &&& MASK64))
      = ((a <<< 64) ||| b) ^^^ x := by
  apply Nat.eq_of_testBit_eq
  intro i
  rw [and_mask64, and_mask64]
  simp only [Nat.testBit_or, Nat.testBit_xor, Nat.testBit_shiftLeft,
    Nat.testBit_shiftRight, Nat.testBit_mod_two_pow]
  rcases Nat.lt_or_ge i 64 with hi | hi
  · have h1 : ¬(i ≥ 64) := by omega
    simp [h1, hi]
  · have hbi : b.testBit i = false :=
      Nat.testBit_lt_two_pow (Nat.lt_of_lt_of_le hb (Nat.pow_le_pow_right (by omega) hi))
    have hxm : (x % 2 ^ 64).testBit i = false :=
      Nat.testBit_lt_two_pow
        (Nat.lt_of_lt_of_le (Nat.mod_lt _ (Nat.two_pow_pos 64))
          (Nat.pow_le_pow_right (by omega) hi))
    have h64 : 64 + (i - 64) = i := by omega
    rcases Nat.lt_or_ge i 128 with hi2 | hi2
    · have h2 : i - 64 < 64 := by omega
      simp [hi, hbi, hxm, h2, h64]
    · have h2 : ¬(i - 64 < 64) := by omega
      have hxi : x.testBit i = false :=
        Nat.testBit_lt_two_pow
          (Nat.lt_of_lt_of_le hx (Nat.pow_le_pow_right (by omega) hi2))
      simp [hi, hbi, hxm, h2, hxi]

/-! ### Well-formedness preservation -/

lemma mask64_lt : MASK64 < 2 ^ 64 := by decide

lemma and_mask64_le (x : Nat) : x &&& MASK64 < 2 ^ 64 :=
  Nat.lt_of_le_of_lt Nat.and_le_right mask64_lt

lemma linear_diffusion_layer_wf (s : AState) : wf (linear_diffusion_layer s) :=
  ⟨and_mask64_le _, and_mask64_le _, and_mask64_le _, and_mask64_le _,
   and_mask64_le _⟩

lemma clear_bit_lt {x : Nat} (k : Nat) (hx : x < 2 ^ 64) : clear_bit x k < 2 ^ 64 := by
  apply Nat.or_lt_two_pow
  · calc (x >>> (k + 1)) <<< (k + 1)
        = x / 2 ^ (k + 1) * 2 ^ (k + 1) := by
          rw [Nat.shiftLeft_eq, Nat.shiftRight_eq_div_pow]
      _ ≤ x := Nat.div_mul_le_self x _
      _ < 2 ^ 64 := hx
  · exact Nat.lt_of_le_of_lt Nat.and_le_left hx

lemma sbox_column_wf {s : AState} (hs : wf s) {k : Nat} (hk : k < 64) :
    wf (sbox_column s k) := by
  obtain ⟨h0, h1, h2, h3, h4⟩ := hs
  have hbit : ∀ d : Nat, (d &&& 1) <<< k < 2 ^ 64 := by
    intro d
    rw [Nat.shiftLeft_eq]
    calc (d &&& 1) * 2 ^ k ≤ 1 * 2 ^ k :=
          Nat.mul_le_mul_right _ Nat.and_le_right
      _ = 2 ^ k := Nat.one_mul _
      _ < 2 ^ 64 := Nat.pow_lt_pow_right (by norm_num) hk
  exact ⟨Nat.or_lt_two_pow (clear_bit_lt k h0) (hbit _),
    Nat.or_lt_two_pow (clear_bit_lt k h1) (hbit _),
    Nat.or_lt_two_pow (clear_bit_lt k h2) (hbit _),
    Nat.or_lt_two_pow (clear_bit_lt k h3) (hbit _),
    Nat.or_lt_two_pow (clear_bit_lt k h4) (hbit _)⟩

lemma sbox_layer_wf {s : AState} (hs : wf s) : wf (sbox_layer s) := by
  have key : ∀ (l : List Nat), (∀ k ∈ l, k < 64) → ∀ t, wf t → wf (l.foldl sbox_column t) := by
    intro l
    induction l with
    | nil => intro _ t ht; exact ht
    | cons k ks ih =>
      intro hmem t ht
      exact ih (fun j hj => hmem j (List.mem_cons_of_mem k hj)) _
        (sbox_column_wf ht (hmem k (List.mem_cons_self k ks)))
  exact key (List.range 64) (fun k hk => List.mem_range.mp hk) s hs

lemma const_getD_lt (j : Nat) : CONST.getD j 0 < 2 ^ 64 := by
  rcases Nat.lt_or_ge j 16 with h | h
  · interval_cases j <;> decide
  · rw [List.getD_eq_default _ _ (by simp [CONST]; omega)]
    decide

lemma get_round_constant_lt (rnd i : Nat) : get_round_constant rnd i < 2 ^ 64 :=
  const_getD_lt _

lemma ascon_round_wf (s : AState) (rounds i : Nat) :
    wf (ascon_round rounds i s) := by
  apply linear_diffusion_layer_wf

lemma ascon_permutation_wf {s : AState} (hs : wf s) (rounds : Nat) :
    wf (ascon_permutation s rounds) := by
  have key : ∀ (l : List Nat) t, wf t →
      wf (l.foldl (fun u i => ascon_round rounds i u) t) := by
    intro l
    induction l with
    | nil => intro t ht; exact ht
    | cons k ks ih => intro t ht; exact ih _ (ascon_round_wf t rounds k)
  exact key (List.range rounds) s hs

lemma absorb_rate_wf {s : AState} (hs : wf s) (n : Nat) : wf (absorb_rate s n) :=
  ⟨Nat.xor_lt_two_pow hs.1 (and_mask64_le _),
   Nat.xor_lt_two_pow hs.2.1 (and_mask64_le _), hs.2.2.1, hs.2.2.2.1, hs.2.2.2.2⟩

lemma ds_step_wf {s : AState} (hs : wf s) : wf (ds_step s) :=
  ⟨hs.1, hs.2.1, hs.2.2.1, hs.2.2.2.1,
   Nat.xor_lt_two_pow hs.2.2.2.2 (by norm_num)⟩

lemma ad_block_step_wf {s : AState} (hs : wf s) (block : List Bool) :
    wf (ad_block_step s block) :=
  ascon_permutation_wf (absorb_rate_wf hs _) 8

lemma process_associated_data_wf {s : AState} (hs : wf s) (A : List Bool) :
    wf (process_associated_data s A) := by
  unfold process_associated_data
  split
  · exact ds_step_wf hs
  · apply ds_step_wf
    have key : ∀ (l : List (List Bool)) t, wf t → wf (l.foldl ad_block_step t) := by
      intro l
      induction l with
      | nil => intro t ht; exact ht
      | cons b bs ih => intro t ht; exact ih _ (ad_block_step_wf ht b)
    exact key _ _ hs

lemma pt_fold_wf :
    ∀ (l : List (List Bool)) (t : AState × List (List Nat)), wf t.1 →
      wf (l.foldl pt_full_step t).1 := by
  intro l
  induction l with
  | nil => intro t ht; exact ht
  | cons b bs ih =>
    intro t ht
    exact ih _ (ascon_permutation_wf (absorb_rate_wf ht _) 8)

lemma process_plaintext_wf {s : AState} (hs : wf s) (P : List Bool) :
    wf (process_plaintext s P).1 := by
  unfold process_plaintext
  dsimp only
  split <;> exact absorb_rate_wf (pt_fold_wf _ (s, []) hs) _

lemma ascon_initialize_wf (K N : Nat) : wf ( ascon_initialize K N) := by
  have h0 : wf ( init_load K N) := by
    refine ⟨?_, and_mask64_le _, and_mask64_le _, and_mask64_le _, and_mask64_le _⟩
    show (0x00001000808C0001 : Nat) < 2 ^ 64
    decide
  have h1 := ascon_permutation_wf h0 12
  exact ⟨h1.1, h1.2.1, h1.2.2.1,
    Nat.xor_lt_two_pow h1.2.2.2.1 (and_mask64_le _),
    Nat.xor_lt_two_pow h1.2.2.2.2 (and_mask64_le _)⟩

/-! ### Block-parsing lemmas -/

lemma parse_shape_append {α : Type} (r : Nat) (hr : 0 < r) (x y : List α)
    (hx : x.length = r) :
    (((List.range ((x ++ y).length / r)).map
        (fun i => ((x ++ y).drop (i * r)).take r))
      ++ [(x ++ y).drop ((x ++ y).length / r * r)])
    = x :: (((List.range (y.length / r)).map (fun i => (y.drop (i * r)).take r))
      ++ [y.drop (y.length / r * r)]) := by
  have hlen : (x ++ y).length = y.length + r := by
    rw [List.length_append, hx]
    omega
  have hdiv : (x ++ y).length / r = y.length / r + 1 := by
    rw [hlen, Nat.add_div_right _ hr]
  have hdropr : ∀ m : Nat, (x ++ y).drop (r + m) = y.drop m := by
    intro m
    rw [← List.drop_drop, List.drop_left' hx]
  rw [hdiv, List.range_succ_eq_map, List.map_cons, List.map_map]
  have hhead : ((x ++ y).drop (0 * r)).take r = x := by
    rw [Nat.zero_mul, List.drop_zero, List.take_left' hx]
  have htail : (List.range (y.length / r)).map
      ((fun i => ((x ++ y).drop (i * r)).take r) ∘ Nat.succ)
      = (List.range (y.length / r)).map (fun i => (y.drop (i * r)).take r) := by
    refine List.map_congr_left (fun i hi => ?_)
    simp only [Function.comp_apply]
    have hmul : Nat.succ i * r = r + i * r := by
      rw [Nat.succ_mul, Nat.add_comm]
    rw [hmul, hdropr]
  have hlast : (x ++ y).drop ((y.length / r + 1) * r) = y.drop (y.length / r * r) := by
    have hmul : (y.length / r + 1) * r = r + y.length / r * r := by
      rw [Nat.add_mul, Nat.one_mul, Nat.add_comm]
    rw [hmul, hdropr]
  rw [hhead, htail, hlast, List.cons_append]

lemma parse_input_append {x y : List Bool} (hx : x.length = 128) :
    parse_input (x ++ y) 128 = x :: parse_input y 128 := by
  unfold parse_input
  exact parse_shape_append 128 (by norm_num) x y hx

lemma dec_parse_append {x y : List Nat} (hx : x.length = 16) :
    dec_parse (x ++ y) = x :: dec_parse y := by
  unfold dec_parse
  exact parse_shape_append 16 (by norm_num) x y hx

lemma parse_input_small {X : List Bool} (h : X.length < 128) :
    parse_input X 128 = [X] := by
  unfold parse_input
  rw [Nat.div_eq_of_lt h]
  simp

lemma dec_parse_small {C : List Nat} (h : C.length < 16) :
    dec_parse C = [C] := by
  unfold dec_parse
  rw [Nat.div_eq_of_lt h]
  simp

lemma parse_input_ne_nil (X : List Bool) (r : Nat) : parse_input X r ≠ [] := by
  simp [parse_input]

/-! ### Shared structural lemmas for the AD phase and key masking -/

lemma process_ad_factor (s : AState) (A : List Bool) :
    process_associated_data s A = ds_step (ad_absorb_all s A) := by
  by_cases h : A.length = 0 <;>
    simp [process_associated_data, ad_absorb_all, h]

lemma hi_half_mod (K : Nat) :
    ((K % 2 ^ 128) >>> 64) &&& MASK64 = (K >>> 64) &&& MASK64 := by
  rw [and_mask64, and_mask64, Nat.shiftRight_eq_div_pow, Nat.shiftRight_eq_div_pow]
  have h : (2 : Nat) ^ 128 = 2 ^ 64 * 2 ^ 64 := by norm_num
  rw [h, Nat.mod_mul_right_div_self, Nat.mod_mod_of_dvd _ (dvd_refl _)]

lemma lo_half_mod (K : Nat) : (K % 2 ^ 128) &&& MASK64 = K &&& MASK64 := by
  rw [and_mask64, and_mask64]
  exact Nat.mod_mod_of_dvd K (pow_dvd_pow 2 (by norm_num))

lemma enc_mod (K N : Nat) (A P : List Nat) :
    ascon_aead128_enc K N A P
      = ascon_aead128_enc (K % 2 ^ 128) (N % 2 ^ 128) A P := by
  have h1 : ascon_initialize (K % 2 ^ 128) (N % 2 ^ 128) = ascon_initialize K N := by
    unfold ascon_initialize init_load
    rw [hi_half_mod K, lo_half_mod K, hi_half_mod N, lo_half_mod N]
  have h2 : ∀ t : AState, finalize t (K % 2 ^ 128) = finalize t K := by
    intro t
    unfold finalize
    rw [hi_half_mod K, lo_half_mod K]
  unfold ascon_aead128_enc
  simp only [h1, h2]

lemma bytes_to_bits_replicate_zero (z : Nat) :
    bytes_to_bits (List.replicate z 0) = List.replicate (8 * z) false := by
  induction z with
  | zero => rfl
  | succ z ih =>
    rw [List.replicate_succ]
    show byte_to_bits 0 ++ bytes_to_bits (List.replicate z 0) = _
    have hbz : byte_to_bits 0 = List.replicate 8 false := by decide
    rw [ih, hbz, ← List.replicate_add]
    congr 1
    ring

lemma pad_bytes_eq (B : List Nat) :
    pad (bytes_to_bits B) 128
      = bytes_to_bits (B ++ 0x80 :: List.replicate (15 - B.length % 16) 0) := by
  have hm : B.length % 16 < 16 := Nat.mod_lt _ (by norm_num)
  have hmod : 8 * B.length % 128 = 8 * (B.length % 16) := by
    have h : (128 : Nat) = 8 * 16 := by norm_num
    rw [h, Nat.mul_mod_mul_left]
  have hb80 : byte_to_bits 0x80 = [true] ++ List.replicate 7 false := by decide
  have hz : bytes_to_bits (0x80 :: List.replicate (15 - B.length % 16) 0)
      = [true] ++ List.replicate (7 + 8 * (15 - B.length % 16)) false := by
    show byte_to_bits 0x80 ++ bytes_to_bits (List.replicate (15 - B.length % 16) 0) = _
    rw [bytes_to_bits_replicate_zero, hb80, List.append_assoc, ← List.replicate_add]
  rw [bytes_to_bits_append, hz]
  show bytes_to_bits B ++ [true] ++ _ = _
  rw [bytes_to_bits_length, hmod]
  have hcount : 128 - 8 * (B.length % 16) - 1 = 7 + 8 * (15 - B.length % 16) := by
    omega
  rw [hcount, List.append_assoc]

/-! ### Claims -/

/-- C2, counterexample: on empty associated data and the all-zero state the
code XORs `1` (the least-significant bit) into `S4`, not `1 <<< 63` as the
claim states. -/
theorem C2_counterexample :
    (process_associated_data ⟨0, 0, 0, 0, 0⟩ []).s4 = 1 ∧
      (process_associated_data ⟨0, 0, 0, 0, 0⟩ []).s4 ≠ 0 ^^^ (1 <<< 63) := by
  decide

/-- C2, amended: for every state and every associated-data input, including
empty AD (in which case zero blocks are absorbed), the associated-data
absorption step ends by applying domain separation exactly once,
unconditionally, as `S4 ^= 1` (the least-significant bit), not `1 << 63`. -/
theorem C2_domain_separation (s : AState) (A : List Bool) :
    process_associated_data s A =
      ⟨(ad_absorb_all s A).s0, (ad_absorb_all s A).s1, (ad_absorb_all s A).s2,
       (ad_absorb_all s A).s3, (ad_absorb_all s A).s4 ^^^ 1⟩ := by
  rw [process_ad_factor]
  rfl

/-- C3, counterexample: the first constant of a 12-round call is table entry
4 (`0xF0`), not entry 0, and the first constant of an 8-round call is entry 8
(`0xB4`), not entry 4: the formula `[16 - rounds + i]` contradicts the
start indices stated by the claim. -/
theorem C3_counterexample :
    get_round_constant 12 0 = CONST.getD 4 0 ∧
      get_round_constant 12 0 ≠ CONST.getD 0 0 ∧
      get_round_constant 8 0 = CONST.getD 8 0 ∧
      get_round_constant 8 0 ≠ CONST.getD 4 0 := by
  decide

/-- C3, amended: in a `rounds`-round permutation call the constant XORed into
`S2` during round `i` (0-based) is round-constant table entry
`[16 - rounds + i]`, where the 16-entry table runs `0x3C` down through
`0x4B`; in particular a 12-round call starts at table index 4 and an 8-round
call starts at table index 8. -/
theorem C3_round_constant_schedule :
    (∀ (s : AState) (rounds : Nat),
      ascon_permutation s rounds = (List.range rounds).foldl
        (fun t i => linear_diffusion_layer (sbox_layer
          ⟨t.s0, t.s1, t.s2 ^^^ CONST.getD (16 - rounds + i) 0, t.s3, t.s4⟩)) s)
    ∧ CONST.length = 16 ∧ CONST.headD 0 = 0x3C ∧ CONST.getLastD 0 = 0x4B
    ∧ (∀ i : Nat, get_round_constant 12 i = CONST.getD (4 + i) 0)
    ∧ (∀ i : Nat, get_round_constant 8 i = CONST.getD (8 + i) 0) := by
  exact ⟨fun s rounds => rfl, rfl, rfl, rfl, fun i => rfl, fun i => rfl⟩

/-- C7, counterexample: the byte the `10*` rule appends first is `0x80`
(a single 1 bit at the most-significant position of the byte), not `0x01`:
already on the empty input the padded block differs from the claimed
`0x01`-padded block. -/
theorem C7_counterexample :
    pad (bytes_to_bits []) 128 ≠ bytes_to_bits (0x01 :: List.replicate 15 0) ∧
      pad (bytes_to_bits []) 128 = bytes_to_bits (0x80 :: List.replicate 15 0) := by
  decide

/-- C7, amended: the `10*` padding on byte-aligned input appends one `0x80`
byte (a 1 bit followed by zero bits) and then the minimum number of zero
bytes needed to reach a multiple of 16 bytes; it always appends at least one
byte, so the padded length is the input length rounded up to the next
non-zero multiple of 16, with a full extra block when the length is already a
multiple of 16. -/
theorem C7_padding (B : List Nat) :
    pad (bytes_to_bits B) 128
      = bytes_to_bits (B ++ 0x80 :: List.replicate (15 - B.length % 16) 0)
    ∧ (B ++ 0x80 :: List.replicate (15 - B.length % 16) 0).length
        = B.length + (16 - B.length % 16)
    ∧ 0 < 16 - B.length % 16 ∧ (B.length + (16 - B.length % 16)) % 16 = 0 := by
  have hm : B.length % 16 < 16 := Nat.mod_lt _ (by norm_num)
  refine ⟨pad_bytes_eq B, ?_, by omega, by omega⟩
  simp only [List.length_append, List.length_cons, List.length_replicate]
  omega

/-- C8, counterexample: a 17-byte key (`0x01` followed by 16 zero bytes,
which the KAT harness converts to the integer `2 ^ 128`) is silently reduced
to the 16-byte all-zero key: encryption produces the identical ciphertext and
tag, and no error is reported. -/
theorem C8_counterexample :
    ascon_aead128_enc (bytes_to_int_be (1 :: List.replicate 16 0)) 0 [] []
        = ascon_aead128_enc (bytes_to_int_be (List.replicate 16 0)) 0 [] []
      ∧ (1 :: List.replicate 16 0 : List Nat).length = 17 := by
  constructor
  · have h1 : bytes_to_int_be (1 :: List.replicate 16 0) = 2 ^ 128 := by
      rw [be_cons, be_replicate_zero, List.length_replicate]
      norm_num
    have h2 : bytes_to_int_be (List.replicate 16 0) = 0 := be_replicate_zero 16
    rw [h1, h2, enc_mod (2 ^ 128) 0 [] [], Nat.mod_self, Nat.zero_mod]
  · rfl

/-- C8, amended: `ascon_aead128_enc` performs no key or nonce size check: the
key and nonce are taken as arbitrary integers, only their low 128 bits are
used (values are silently reduced modulo `2 ^ 128`), and ciphertext and tag
are produced for every input. -/
theorem C8_no_size_check (K N : Nat) (A P : List Nat) :
    ascon_aead128_enc K N A P
      = ascon_aead128_enc (K % 2 ^ 128) (N % 2 ^ 128) A P :=
  enc_mod K N A P

/-- C9: during associated-data and plaintext absorption, external data is
XORed only into the rate words `S0` and `S1`: the absorb step leaves the
capacity `S2, S3, S4` unchanged, the domain-separation step changes only the
single bit `S4 ^= 1`, and both processing loops factor into these steps
interleaved with permutation calls. -/
theorem C9_capacity_untouched :
    (∀ (s : AState) (n : Nat), (absorb_rate s n).s2 = s.s2 ∧
      (absorb_rate s n).s3 = s.s3 ∧ (absorb_rate s n).s4 = s.s4)
    ∧ (∀ s : AState, (ds_step s).s0 = s.s0 ∧ (ds_step s).s1 = s.s1 ∧
        (ds_step s).s2 = s.s2 ∧ (ds_step s).s3 = s.s3 ∧
        (ds_step s).s4 = s.s4 ^^^ 1)
    ∧ (∀ (s : AState) (A : List Bool),
        process_associated_data s A = ds_step (ad_absorb_all s A))
    ∧ (∀ (s : AState) (block : List Bool),
        ad_block_step s block
          = ascon_permutation (absorb_rate s (bits_to_int block)) 8)
    ∧ (∀ (acc : AState × List (List Nat)) (block : List Bool),
        (pt_full_step acc block).1
          = ascon_permutation (absorb_rate acc.1 (bits_to_int block)) 8) := by
  exact ⟨fun s n => ⟨rfl, rfl, rfl⟩, fun s => ⟨rfl, rfl, rfl, rfl, rfl⟩,
    process_ad_factor, fun s block => rfl, fun acc block => rfl⟩

/-- C10: for every `rounds` with `1 ≤ rounds ≤ 16` and every round index
`i < rounds`, the constant lookup uses index `16 - rounds + i`, which is
nonnegative as a signed value and always within bounds `0..15` of the
16-entry table, so the constant-addition step never accesses the table out of
range. -/
theorem C10_round_constant_index_safe (rounds i : Nat) (h1 : 1 ≤ rounds)
    (h16 : rounds ≤ 16) (hi : i < rounds) :
    16 - rounds + i < 16
    ∧ (16 : Int) - rounds + i = ((16 - rounds + i : Nat) : Int)
    ∧ ∃ h : 16 - rounds + i < CONST.length,
        get_round_constant rounds i = CONST.get ⟨16 - rounds + i, h⟩ := by
  have hidx : 16 - rounds + i < 16 := by omega
  have hlen : (CONST.length : Nat) = 16 := rfl
  refine ⟨hidx, by push_cast; omega, ⟨by rw [hlen]; exact hidx, ?_⟩⟩
  rw [get_round_constant, List.getD_eq_getElem _ _ (by rw [hlen]; exact hidx)]
  rw [List.get_eq_getElem]

/-- C10, witness at `rounds = 8`, `i = 3`. -/
theorem C10_round_constant_index_safe_witness :
    16 - 8 + 3 < 16
    ∧ (16 : Int) - 8 + 3 = ((16 - 8 + 3 : Nat) : Int)
    ∧ ∃ h : 16 - 8 + 3 < CONST.length,
        get_round_constant 8 3 = CONST.get ⟨16 - 8 + 3, h⟩ :=
  C10_round_constant_index_safe 8 3 (by decide) (by decide) (by decide)

set_option maxRecDepth 4000 in
/-- C5, counterexample: the tag bytes are serialized big-endian per half, not
little-endian: already for the all-zero state and all-zero key, the tag the
code returns differs from the spec-prescribed little-endian serialization of
the same two tag halves. -/
theorem C5_counterexample :
    finalize ⟨0, 0, 0, 0, 0⟩ 0 ≠ finalize_tag_le ⟨0, 0, 0, 0, 0⟩ 0 := by
  have e0 : ascon_round 12 0 ⟨0, 0, 0, 0, 0⟩
      = ⟨8460741975736560, 8053065584, 4611686018427387764, 4357232639480955120, 0⟩ := by
    decide
  have e1 : ascon_round 12 1 ⟨8460741975736560, 8053065584, 4611686018427387764, 4357232639480955120, 0⟩
      = ⟨258579695635730309, 4544564124209628253, 14627691594388604043, 18071697646032455700, 15920488574602853375⟩ := by
    decide
  have e2 : ascon_round 12 2 ⟨258579695635730309, 4544564124209628253, 14627691594388604043, 18071697646032455700, 15920488574602853375⟩
      = ⟨2004739375876455379, 4425760636122448396, 5192198319181621800, 6246320526887787732, 7657095028431645049⟩ := by
    decide
  have e3 : ascon_round 12 3 ⟨2004739375876455379, 4425760636122448396, 5192198319181621800, 6246320526887787732, 7657095028431645049⟩
      = ⟨9817741414694831962, 1021780204692907707, 13059573014977504241, 16646928675263913207, 15118226016372832360⟩ := by
    decide
  have e4 : ascon_round 12 4 ⟨9817741414694831962, 1021780204692907707, 13059573014977504241, 16646928675263913207, 15118226016372832360⟩
      = ⟨14335272074053765461, 8100333541282943765, 15808828575661334373, 2070808874121380004, 10571553973493958888⟩ := by
    decide
  have e5 : ascon_round 12 5 ⟨14335272074053765461, 8100333541282943765, 15808828575661334373, 2070808874121380004, 10571553973493958888⟩
      = ⟨2318415525395751600, 18440192162390431985, 3950606510773504830, 16513016972371722265, 17077413998789319005⟩ := by
    decide
  have e6 : ascon_round 12 6 ⟨2318415525395751600, 18440192162390431985, 3950606510773504830, 16513016972371722265, 17077413998789319005⟩
      = ⟨3394012870514575957, 3968863595055722575, 12241326942727091396, 2299238985166269092, 16501877648420378092⟩ := by
    decide
  have e7 : ascon_round 12 7 ⟨3394012870514575957, 3968863595055722575, 12241326942727091396, 2299238985166269092, 16501877648420378092⟩
      = ⟨2882935231424312640, 11096950850276935427, 12648451150682484316, 16789099887064113366, 2684129326672270417⟩ := by
    decide
  have e8 : ascon_round 12 8 ⟨2882935231424312640, 11096950850276935427, 12648451150682484316, 16789099887064113366, 2684129326672270417⟩
      = ⟨1145400380184467837, 2100411368219230069, 5760243497075265214, 7930093407150552989, 6096945643523974262⟩ := by
    decide
  have e9 : ascon_round 12 9 ⟨1145400380184467837, 2100411368219230069, 5760243497075265214, 7930093407150552989, 6096945643523974262⟩
      = ⟨4292568255308299155, 3010733585488375535, 11354536878571187992, 14940206054503878589, 11020432252114643789⟩ := by
    decide
  have e10 : ascon_round 12 10 ⟨4292568255308299155, 3010733585488375535, 11354536878571187992, 14940206054503878589, 11020432252114643789⟩
      = ⟨259859413930292913, 10388793303306125848, 4605635240078695523, 7165443795095050403, 13214557436928728062⟩ := by
    decide
  have e11 : ascon_round 12 11 ⟨259859413930292913, 10388793303306125848, 4605635240078695523, 7165443795095050403, 13214557436928728062⟩
      = ⟨8712911556556075272, 11212832246248857847, 7581801442937215568, 4604155699289724812, 314518111341449929⟩ := by
    decide
  have hr : List.range 12 = [0, 1, 2, 3, 4, 5, 6, 7, 8, 9, 10, 11] := by decide
  have hp : ascon_permutation ⟨0, 0, 0, 0, 0⟩ 12
      = ⟨8712911556556075272, 11212832246248857847, 7581801442937215568, 4604155699289724812, 314518111341449929⟩ := by
    show (List.range 12).foldl (fun t i => ascon_round 12 i t) _ = _
    rw [hr]
    simp only [List.foldl_cons, List.foldl_nil]
    rw [e0, e1, e2, e3, e4, e5, e6, e7, e8, e9, e10, e11]
  have hz1 : ((0 : Nat) >>> 64) &&& MASK64 = 0 := by decide
  have hz2 : (0 : Nat) &&& MASK64 = 0 := by decide
  unfold finalize finalize_tag_le
  simp only [hz1, hz2, Nat.xor_zero]
  rw [hp]
  decide

/-! ### Key and nonce half-loading lemmas -/

lemma be_hi_half {key : List Nat} (hlen : key.length = 16)
    (hv : ∀ b ∈ key, b < 256) :
    (bytes_to_int_be key >>> 64) &&& MASK64 = bytes_to_int_be (key.take 8) := by
  have htlen : (key.take 8).length = 8 := by
    rw [List.length_take, hlen]
    decide
  have hdlen : (key.drop 8).length = 8 := by
    rw [List.length_drop, hlen]
  have ht : bytes_to_int_be (key.take 8) < 2 ^ 64 := by
    have h := be_lt (key.take 8) (fun b hb => hv b (List.take_subset 8 key hb))
    rw [htlen] at h
    calc bytes_to_int_be (key.take 8) < 256 ^ 8 := h
      _ = 2 ^ 64 := by norm_num
  have hd : bytes_to_int_be (key.drop 8) < 2 ^ 64 := by
    have h := be_lt (key.drop 8) (fun b hb => hv b (List.drop_subset 8 key hb))
    rw [hdlen] at h
    calc bytes_to_int_be (key.drop 8) < 256 ^ 8 := h
      _ = 2 ^ 64 := by norm_num
  conv_lhs => rw [← List.take_append_drop 8 key]
  rw [be_append, hdlen, Nat.shiftRight_eq_div_pow, and_mask64]
  have h256 : (256 : Nat) ^ 8 = 2 ^ 64 := by norm_num
  rw [h256, Nat.mul_comm, Nat.mul_add_div (Nat.two_pow_pos 64),
    Nat.div_eq_of_lt hd, Nat.add_zero, Nat.mod_eq_of_lt ht]

lemma be_lo_half {key : List Nat} (hlen : key.length = 16)
    (hv : ∀ b ∈ key, b < 256) :
    bytes_to_int_be key &&& MASK64 = bytes_to_int_be (key.drop 8) := by
  have hdlen : (key.drop 8).length = 8 := by
    rw [List.length_drop, hlen]
  have hd : bytes_to_int_be (key.drop 8) < 2 ^ 64 := by
    have h := be_lt (key.drop 8) (fun b hb => hv b (List.drop_subset 8 key hb))
    rw [hdlen] at h
    calc bytes_to_int_be (key.drop 8) < 256 ^ 8 := h
      _ = 2 ^ 64 := by norm_num
  conv_lhs => rw [← List.take_append_drop 8 key]
  rw [be_append, hdlen, and_mask64]
  have h256 : (256 : Nat) ^ 8 = 2 ^ 64 := by norm_num
  rw [h256, Nat.mul_comm, Nat.mul_add_mod, Nat.mod_eq_of_lt hd]

/-- C4, counterexample: the key half is loaded into its lane in big-endian
byte order, not little-endian: for the 16-byte key `0x01 0x00 .. 0x00` (as
converted by the KAT harness) the code loads `S1 = 0x0100000000000000`, while
little-endian loading of the first 8-byte half gives `0x01`. -/
theorem C4_counterexample :
    ( init_load (bytes_to_int_be (1 :: List.replicate 15 0)) 0).s1
        = 0x0100000000000000
    ∧ bytes_to_int_le ((1 :: List.replicate 15 0).take 8) = 0x01
    ∧ ( init_load (bytes_to_int_be (1 :: List.replicate 15 0)) 0).s1
        ≠ bytes_to_int_le ((1 :: List.replicate 15 0).take 8) := by
  refine ⟨by decide, by decide, by decide⟩

/-- C4, amended: initialization builds the state as
`S0 = 0x00001000808C0001`, `S1, S2` the two key halves and `S3, S4` the two
nonce halves, each 8-byte half loaded into its 64-bit lane in big-endian
byte order (most significant byte first, matching the harness conversion
`int.from_bytes(key, "big")`), then applies the 12-round permutation, then
XORs the key halves into `S3` and `S4` (re-injection by XOR, not
reassignment). -/
theorem C4_initialization (key nonce : List Nat) (hk : key.length = 16)
    (hkv : ∀ b ∈ key, b < 256) (hn : nonce.length = 16)
    (hnv : ∀ b ∈ nonce, b < 256) :
    init_load (bytes_to_int_be key) (bytes_to_int_be nonce)
      = ⟨0x00001000808C0001, bytes_to_int_be (key.take 8),
         bytes_to_int_be (key.drop 8), bytes_to_int_be (nonce.take 8),
         bytes_to_int_be (nonce.drop 8)⟩
    ∧ (∀ Kv Nv : Nat, ascon_initialize Kv Nv =
        ⟨(ascon_permutation ( init_load Kv Nv) 12).s0,
         (ascon_permutation ( init_load Kv Nv) 12).s1,
         (ascon_permutation ( init_load Kv Nv) 12).s2,
         (ascon_permutation ( init_load Kv Nv) 12).s3 ^^^ ((Kv >>> 64) &&& MASK64),
         (ascon_permutation ( init_load Kv Nv) 12).s4 ^^^ (Kv &&& MASK64)⟩) := by
  constructor
  · unfold init_load
    rw [be_hi_half hk hkv, be_lo_half hk hkv, be_hi_half hn hnv, be_lo_half hn hnv]
  · intro Kv Nv
    rfl

/-- C4, witness at the key `00 01 02 .. 0F` and the all-zero nonce. -/
theorem C4_initialization_witness :
    init_load (bytes_to_int_be (List.range 16)) (bytes_to_int_be (List.replicate 16 0))
      = ⟨0x00001000808C0001, bytes_to_int_be ((List.range 16).take 8),
         bytes_to_int_be ((List.range 16).drop 8),
         bytes_to_int_be ((List.replicate 16 0).take 8),
         bytes_to_int_be ((List.replicate 16 0).drop 8)⟩
    ∧ (∀ Kv Nv : Nat, ascon_initialize Kv Nv =
        ⟨(ascon_permutation ( init_load Kv Nv) 12).s0,
         (ascon_permutation ( init_load Kv Nv) 12).s1,
         (ascon_permutation ( init_load Kv Nv) 12).s2,
         (ascon_permutation ( init_load Kv Nv) 12).s3 ^^^ ((Kv >>> 64) &&& MASK64),
         (ascon_permutation ( init_load Kv Nv) 12).s4 ^^^ (Kv &&& MASK64)⟩) :=
  C4_initialization (List.range 16) (List.replicate 16 0) (by decide) (by decide)
    (by decide) (by decide)

/-- Splitting the 16-byte big-endian serialization of a 128-bit value built
from two 64-bit halves. -/
lemma int128_split {a b : Nat} (ha : a < 2 ^ 64) (hb : b < 2 ^ 64) :
    int128_to_bytes ((a <<< 64) ||| b) = int_to_bytes a 8 ++ int_to_bytes b 8 := by
  have hval : ∀ x ∈ int_to_bytes a 8 ++ int_to_bytes b 8, x < 256 := by
    intro x hx
    rcases List.mem_append.mp hx with h | h
    exacts [int_to_bytes_valid a 8 x h, int_to_bytes_valid b 8 x h]
  have hlen : (int_to_bytes a 8 ++ int_to_bytes b 8).length = 16 := by
    simp [int_to_bytes_length]
  have h256 : (2 : Nat) ^ 64 = 256 ^ 8 := by norm_num
  have hbe : bytes_to_int_be (int_to_bytes a 8 ++ int_to_bytes b 8)
      = (a <<< 64) ||| b := by
    rw [be_append, int_to_bytes_length, be_int_to_bytes (h256 ▸ ha),
      be_int_to_bytes (h256 ▸ hb), shiftLeft_or_eq_add 64 hb, ← h256]
  have h := int_to_bytes_of_be (int_to_bytes a 8 ++ int_to_bytes b 8) hval
  rw [hlen, hbe] at h
  exact h

/-- C5, amended: for every well-formed state and key, finalization XORs the
key halves into `S2` and `S3`, applies the 12-round permutation, XORs the key
halves into `S3` and `S4` (combining by XOR, not reassigning), and returns
the tag `S3 ‖ S4` with each 8-byte half serialized in big-endian byte order
(not little-endian as the claim states); the tag is exactly 16 bytes, and the
128-bit tag value stays below `2 ^ 128` (so the 16-byte conversion never
overflows). -/
theorem C5_finalize (s : AState) (K : Nat) (hs : wf s) :
    finalize s K
      = int_to_bytes
          ((ascon_permutation
              ⟨s.s0, s.s1, s.s2 ^^^ ((K >>> 64) &&& MASK64),
               s.s3 ^^^ (K &&& MASK64), s.s4⟩ 12).s3 ^^^ ((K >>> 64) &&& MASK64)) 8
        ++ int_to_bytes
          ((ascon_permutation
              ⟨s.s0, s.s1, s.s2 ^^^ ((K >>> 64) &&& MASK64),
               s.s3 ^^^ (K &&& MASK64), s.s4⟩ 12).s4 ^^^ (K &&& MASK64)) 8
    ∧ (finalize s K).length = 16
    ∧ ((ascon_permutation
          ⟨s.s0, s.s1, s.s2 ^^^ ((K >>> 64) &&& MASK64),
           s.s3 ^^^ (K &&& MASK64), s.s4⟩ 12).s3 ^^^ ((K >>> 64) &&& MASK64)) <<< 64
        ||| ((ascon_permutation
          ⟨s.s0, s.s1, s.s2 ^^^ ((K >>> 64) &&& MASK64),
           s.s3 ^^^ (K &&& MASK64), s.s4⟩ 12).s4 ^^^ (K &&& MASK64))
        < 2 ^ 128 := by
  have hwf : wf (ascon_permutation
      ⟨s.s0, s.s1, s.s2 ^^^ ((K >>> 64) &&& MASK64),
       s.s3 ^^^ (K &&& MASK64), s.s4⟩ 12) := by
    apply ascon_permutation_wf
    exact ⟨hs.1, hs.2.1, Nat.xor_lt_two_pow hs.2.2.1 (and_mask64_le _),
      Nat.xor_lt_two_pow hs.2.2.2.1 (and_mask64_le _), hs.2.2.2.2⟩
  have hT0 : (ascon_permutation
      ⟨s.s0, s.s1, s.s2 ^^^ ((K >>> 64) &&& MASK64),
       s.s3 ^^^ (K &&& MASK64), s.s4⟩ 12).s3 ^^^ ((K >>> 64) &&& MASK64) < 2 ^ 64 :=
    Nat.xor_lt_two_pow hwf.2.2.2.1 (and_mask64_le _)
  have hT1 : (ascon_permutation
      ⟨s.s0, s.s1, s.s2 ^^^ ((K >>> 64) &&& MASK64),
       s.s3 ^^^ (K &&& MASK64), s.s4⟩ 12).s4 ^^^ (K &&& MASK64) < 2 ^ 64 :=
    Nat.xor_lt_two_pow hwf.2.2.2.2 (and_mask64_le _)
  refine ⟨?_, int_to_bytes_length _ 16, or64_lt hT0 hT1⟩
  show int128_to_bytes _ = _
  exact int128_split hT0 hT1

/-- C5, witness at the all-zero state and all-zero key. -/
theorem C5_finalize_witness :
    wf ⟨0, 0, 0, 0, 0⟩
    ∧ ((finalize ⟨0, 0, 0, 0, 0⟩ 0).length = 16) :=
  ⟨by decide, (C5_finalize ⟨0, 0, 0, 0, 0⟩ 0 (by decide)).2.1⟩

/-! ### Plaintext-processing decomposition -/

lemma pt_fold_acc (blocks : List (List Bool)) (s : AState) (C0 : List (List Nat)) :
    blocks.foldl pt_full_step (s, C0)
      = ((blocks.foldl pt_full_step (s, [])).1,
         C0 ++ (blocks.foldl pt_full_step (s, [])).2) := by
  induction blocks generalizing s C0 with
  | nil => simp
  | cons b bs ih =>
    have h1 : pt_full_step (s, C0) b
        = ((pt_full_step (s, []) b).1, C0 ++ (pt_full_step (s, []) b).2) := rfl
    rw [List.foldl_cons, List.foldl_cons, h1,
      ih (pt_full_step (s, []) b).1 (C0 ++ (pt_full_step (s, []) b).2)]
    conv_rhs =>
      rw [show pt_full_step (s, []) b
          = ((pt_full_step (s, []) b).1, (pt_full_step (s, []) b).2) from rfl,
        ih (pt_full_step (s, []) b).1 (pt_full_step (s, []) b).2]
    rw [List.append_assoc]

lemma process_plaintext_cons {x y : List Bool} (hx : x.length = 128) (s : AState) :
    process_plaintext s (x ++ y)
      = ((process_plaintext (ascon_permutation (absorb_rate s (bits_to_int x)) 8) y).1,
         int128_to_bytes (((absorb_rate s (bits_to_int x)).s0 <<< 64)
             ||| (absorb_rate s (bits_to_int x)).s1)
           :: (process_plaintext (ascon_permutation (absorb_rate s (bits_to_int x)) 8) y).2) := by
  have hparse := parse_input_append (y := y) hx
  have hshape : parse_input y 128
      = ((List.range (y.length / 128)).map (fun i => (y.drop (i * 128)).take 128))
        ++ [y.drop (y.length / 128 * 128)] := rfl
  set Ys := (List.range (y.length / 128)).map (fun i => (y.drop (i * 128)).take 128)
    with hYs
  set z := y.drop (y.length / 128 * 128) with hzdef
  have hblocks : parse_input (x ++ y) 128 = (x :: Ys) ++ [z] := by
    rw [hparse, hshape]
    rfl
  have hlast : (parse_input (x ++ y) 128).getLastD [] = z := by
    rw [hblocks]
    exact List.getLastD_concat _ _ _
  have hlast2 : (parse_input y 128).getLastD [] = z := by
    rw [hshape]
    exact List.getLastD_concat _ _ _
  have hdrop : (parse_input (x ++ y) 128).dropLast = x :: Ys := by
    rw [hblocks]
    exact List.dropLast_concat
  have hdrop2 : (parse_input y 128).dropLast = Ys := by
    rw [hshape]
    exact List.dropLast_concat
  unfold process_plaintext
  dsimp only
  rw [hdrop, hdrop2, hlast, hlast2, List.foldl_cons]
  have hstep : pt_full_step (s, []) x
      = (ascon_permutation (absorb_rate s (bits_to_int x)) 8,
         [int128_to_bytes (((absorb_rate s (bits_to_int x)).s0 <<< 64)
           ||| (absorb_rate s (bits_to_int x)).s1)]) := rfl
  rw [hstep,
    pt_fold_acc Ys (ascon_permutation (absorb_rate s (bits_to_int x)) 8)
      [int128_to_bytes (((absorb_rate s (bits_to_int x)).s0 <<< 64)
        ||| (absorb_rate s (bits_to_int x)).s1)]]
  by_cases hlen : 0 < z.length
  · simp only [if_pos hlen]
    simp
  · simp only [if_neg hlen]
    simp

lemma process_plaintext_small {X : List Bool} (hlt : X.length < 128) (s : AState) :
    process_plaintext s X
      = (absorb_rate s (bits_to_int (pad X 128)),
         if 0 < X.length
         then [(int128_to_bytes
             (((absorb_rate s (bits_to_int (pad X 128))).s0 <<< 64)
               ||| (absorb_rate s (bits_to_int (pad X 128))).s1)).take (X.length / 8)]
         else []) := by
  have hparse : parse_input X 128 = [X] := parse_input_small hlt
  have hlast : (parse_input X 128).getLastD [] = X := by
    rw [hparse]
    rfl
  have hdrop : (parse_input X 128).dropLast = [] := by
    rw [hparse]
    rfl
  unfold process_plaintext
  dsimp only
  rw [hdrop, hlast, List.foldl_nil]
  by_cases h0 : 0 < X.length <;> simp [h0]

lemma bytes_to_bits_take_len {P : List Nat} (h16 : 16 ≤ P.length) :
    (bytes_to_bits (P.take 16)).length = 128 := by
  rw [bytes_to_bits_length, List.length_take]
  omega

lemma bytes_split_16 (P : List Nat) :
    bytes_to_bits P = bytes_to_bits (P.take 16) ++ bytes_to_bits (P.drop 16) := by
  rw [← bytes_to_bits_append, List.take_append_drop]

lemma pp_len : ∀ (n : Nat) (P : List Nat), P.length ≤ n → ∀ s : AState,
    ((process_plaintext s (bytes_to_bits P)).2.flatten).length = P.length := by
  intro n
  induction n with
  | zero =>
    intro P hP s
    have hnil : P = [] := List.length_eq_zero.mp (by omega)
    subst hnil
    rw [process_plaintext_small (by decide) s]
    rfl
  | succ n ih =>
    intro P hP s
    rcases Nat.lt_or_ge P.length 16 with h | h
    · have hb : (bytes_to_bits P).length < 128 := by
        rw [bytes_to_bits_length]
        omega
      rw [process_plaintext_small hb s]
      by_cases h0 : 0 < P.length
      · have h0b : 0 < (bytes_to_bits P).length := by
          rw [bytes_to_bits_length]
          omega
        simp only [if_pos h0b]
        simp [List.length_take, int128_to_bytes_length, bytes_to_bits_length]
        omega
      · have h0b : ¬(0 < (bytes_to_bits P).length) := by
          rw [bytes_to_bits_length]
          omega
        simp only [if_neg h0b]
        simp
        omega
    · rw [bytes_split_16 P, process_plaintext_cons (bytes_to_bits_take_len h) s]
      have hdlen : (P.drop 16).length ≤ n := by
        rw [List.length_drop]
        omega
      simp only [List.flatten_cons, List.length_append, int128_to_bytes_length]
      rw [ih (P.drop 16) hdlen, List.length_drop]
      omega

/-- C6: for every key, nonce, AD and plaintext (including the empty
plaintext), encryption emits ciphertext whose total byte length equals the
plaintext length; a 16-byte plaintext yields exactly one full 16-byte
ciphertext block with no truncation, and a 17-byte plaintext yields a full
16-byte block plus a 1-byte block produced by the second, padding-only final
block. -/
theorem C6_length_preservation (K N : Nat) (A P : List Nat) :
    ((ascon_aead128_enc K N A P).1.flatten).length = P.length
    ∧ (P.length = 16 → (ascon_aead128_enc K N A P).1.map List.length = [16])
    ∧ (P.length = 17 → (ascon_aead128_enc K N A P).1.map List.length = [16, 1]) := by
  have henc : (ascon_aead128_enc K N A P).1
      = (process_plaintext
          (process_associated_data ( ascon_initialize K N) (bytes_to_bits A))
          (bytes_to_bits P)).2 := rfl
  refine ⟨?_, ?_, ?_⟩
  · rw [henc]
    exact pp_len P.length P (Nat.le_refl _) _
  · intro h16
    rw [henc, bytes_split_16 P,
      process_plaintext_cons (bytes_to_bits_take_len (by omega)) _]
    have hnil : P.drop 16 = [] := by
      apply List.length_eq_zero.mp
      rw [List.length_drop]
      omega
    rw [hnil]
    rw [process_plaintext_small (by decide) _]
    simp [int128_to_bytes_length, bytes_to_bits]
  · intro h17
    rw [henc, bytes_split_16 P,
      process_plaintext_cons (bytes_to_bits_take_len (by omega)) _]
    have hlt : (bytes_to_bits (P.drop 16)).length < 128 := by
      rw [bytes_to_bits_length, List.length_drop]
      omega
    rw [process_plaintext_small hlt _]
    have h0 : 0 < (bytes_to_bits (P.drop 16)).length := by
      rw [bytes_to_bits_length, List.length_drop]
      omega
    simp only [if_pos h0]
    have hlen1 : (bytes_to_bits (P.drop 16)).length / 8 = 1 := by
      rw [bytes_to_bits_length, List.length_drop, h17]
    rw [hlen1]
    simp [int128_to_bytes_length]

/-- C6, witness at 17-byte and 16-byte plaintexts. -/
theorem C6_length_preservation_witness :
    (((ascon_aead128_enc 0 0 [] (List.replicate 17 3)).1.flatten).length = 17
      ∧ (ascon_aead128_enc 0 0 [] (List.replicate 17 3)).1.map List.length = [16, 1])
    ∧ (((ascon_aead128_enc 0 0 [] (List.replicate 16 3)).1.flatten).length = 16
      ∧ (ascon_aead128_enc 0 0 [] (List.replicate 16 3)).1.map List.length = [16]) := by
  have h17 := C6_length_preservation 0 0 [] (List.replicate 17 3)
  have h16 := C6_length_preservation 0 0 [] (List.replicate 16 3)
  have hl17 : (List.replicate 17 3 : List Nat).length = 17 := by decide
  have hl16 : (List.replicate 16 3 : List Nat).length = 16 := by decide
  exact ⟨⟨h17.1.trans hl17, h17.2.2 hl17⟩, ⟨h16.1.trans hl16, h16.2.1 hl16⟩⟩

/-! ### Round-trip machinery: inverting the plaintext phase -/

lemma pad_length {X : List Bool} (hlt : X.length < 128) :
    (pad X 128).length = 128 := by
  simp only [pad, List.length_append, List.length_cons, List.length_replicate,
    List.length_nil]
  omega

lemma pad_int_lt {X : List Bool} (hlt : X.length < 128) :
    bits_to_int (pad X 128) < 2 ^ 128 := by
  have h := bits_to_int_lt (pad X 128)
  rw [pad_length hlt] at h
  exact h

lemma pad_int_val {B : List Nat} (hlt : B.length < 16) (hv : ∀ b ∈ B, b < 256) :
    bits_to_int (pad (bytes_to_bits B) 128)
      = bytes_to_int_be B * 2 ^ (128 - 8 * B.length) + 2 ^ (127 - 8 * B.length) := by
  have hblen : (bytes_to_bits B).length = 8 * B.length := bytes_to_bits_length B
  have hmod : (bytes_to_bits B).length % 128 = 8 * B.length := by
    rw [hblen]
    exact Nat.mod_eq_of_lt (by omega)
  unfold pad
  rw [List.append_assoc, bits_to_int_append, bytes_bits_val B hv]
  have h2 : (([true] : List Bool)
        ++ List.replicate (128 - (bytes_to_bits B).length % 128 - 1) false).length
      = 128 - 8 * B.length := by
    simp only [List.length_append, List.length_cons, List.length_replicate,
      List.length_nil]
    rw [hblen]
    omega
  have h1 : bits_to_int (([true] : List Bool)
        ++ List.replicate (128 - (bytes_to_bits B).length % 128 - 1) false)
      = 2 ^ (127 - 8 * B.length) := by
    rw [List.singleton_append, bits_to_int_one_zeros]
    congr 1
    rw [hmod]
    omega
  rw [h2, h1]

lemma dec_parse_ne_nil (C : List Nat) : dec_parse C ≠ [] := by
  simp [dec_parse]

lemma dec_blocks_cons {bs : List (List Nat)} (h : bs ≠ []) (s : AState)
    (b : List Nat) :
    dec_blocks s (b :: bs)
      = ((dec_blocks (dec_full_step s b).1 bs).1,
         (dec_full_step s b).2 ++ (dec_blocks (dec_full_step s b).1 bs).2) := by
  cases bs with
  | nil => exact absurd rfl h
  | cons r rs => rfl

lemma ct_compare_self (X : List Nat) : ct_compare X X = true := by
  unfold ct_compare
  have hfold : ∀ (l : List Nat),
      (l.zip l).foldl (fun acc p => acc ||| (p.1 ^^^ p.2)) 0 = 0 := by
    intro l
    induction l with
    | nil => rfl
    | cons a as ih =>
      rw [List.zip_cons_cons, List.foldl_cons]
      simpa using ih
  rw [hfold]
  simp

lemma int128_to_bytes_lt {x : Nat} (hx : x < 2 ^ 128) :
    bytes_to_int_be (int128_to_bytes x) = x := by
  apply be_int_to_bytes
  calc x < 2 ^ 128 := hx
    _ = 256 ^ 16 := by norm_num

lemma dec_enc_small {P : List Nat} (hlt : P.length < 16) (hv : ∀ b ∈ P, b < 256)
    {s : AState} (hs : wf s) :
    dec_blocks s (dec_parse (process_plaintext s (bytes_to_bits P)).2.flatten)
      = ((process_plaintext s (bytes_to_bits P)).1, P) := by
  have hblt : (bytes_to_bits P).length < 128 := by
    rw [bytes_to_bits_length]
    omega
  rw [process_plaintext_small hblt s]
  have hpadlt : bits_to_int (pad (bytes_to_bits P) 128) < 2 ^ 128 := pad_int_lt hblt
  have hpadval := pad_int_val hlt hv
  by_cases h0 : 0 < P.length
  · have h0b : 0 < (bytes_to_bits P).length := by
      rw [bytes_to_bits_length]
      omega
    simp only [if_pos h0b]
    have hdiv8 : (bytes_to_bits P).length / 8 = P.length := by
      rw [bytes_to_bits_length]
      omega
    rw [hdiv8]
    have hctlen : ((int128_to_bytes
        (((absorb_rate s (bits_to_int (pad (bytes_to_bits P) 128))).s0 <<< 64)
          ||| (absorb_rate s (bits_to_int (pad (bytes_to_bits P) 128))).s1)).take
          P.length).length = P.length := by
      rw [List.length_take, int128_to_bytes_length]
      omega
    show dec_blocks s (dec_parse ([_].flatten)) = _
    rw [show ∀ c : List Nat, [c].flatten = c from fun c => by simp]
    rw [dec_parse_small (by rw [hctlen]; exact hlt)]
    show dec_last_step s _ = _
    unfold dec_last_step
    dsimp only
    rw [hctlen]
    -- the padded-block bytes
    have hpadbytes : int128_to_bytes (bits_to_int (pad (bytes_to_bits P) 128))
        = P ++ 0x80 :: List.replicate (15 - P.length % 16) 0 := by
      have hval : ∀ b ∈ P ++ 0x80 :: List.replicate (15 - P.length % 16) 0, b < 256 := by
        intro b hb
        rcases List.mem_append.mp hb with h | h
        · exact hv b h
        · rcases List.mem_cons.mp h with h | h
          · omega
          · have := List.eq_of_mem_replicate h
            omega
      rw [pad_bytes_eq, bytes_bits_val _ hval]
      have hlen16 : (P ++ 0x80 :: List.replicate (15 - P.length % 16) 0).length = 16 := by
        simp only [List.length_append, List.length_cons, List.length_replicate]
        omega
      have h := int_to_bytes_of_be (P ++ 0x80 :: List.replicate (15 - P.length % 16) 0) hval
      rw [hlen16] at h
      exact h
    -- recovered plaintext bytes equal P
    have hPn : (List.range P.length).map
        (fun i => (int128_to_bytes ((s.s0 <<< 64) ||| s.s1)).getD i 0 ^^^
          ((int128_to_bytes (((absorb_rate s
            (bits_to_int (pad (bytes_to_bits P) 128))).s0 <<< 64)
              ||| (absorb_rate s (bits_to_int (pad (bytes_to_bits P) 128))).s1)).take
                P.length).getD i 0) = P := by
      apply List.ext_getElem
      · simp
      · intro i hi1 hi2
        rw [List.getElem_map, List.getElem_range]
        have hiP : i < P.length := by simpa using hi2
        have hi16 : i < 16 := by omega
        have hcget : ((int128_to_bytes (((absorb_rate s
            (bits_to_int (pad (bytes_to_bits P) 128))).s0 <<< 64)
              ||| (absorb_rate s (bits_to_int (pad (bytes_to_bits P) 128))).s1)).take
                P.length).getD i 0
            = (int128_to_bytes (((absorb_rate s
                (bits_to_int (pad (bytes_to_bits P) 128))).s0 <<< 64)
                  ||| (absorb_rate s (bits_to_int (pad (bytes_to_bits P) 128))).s1)).getD i 0 := by
          rw [List.getD_eq_getElem?_getD, List.getElem?_take_of_lt hiP,
            ← List.getD_eq_getElem?_getD]
        rw [hcget]
        have hRxor : ((absorb_rate s (bits_to_int (pad (bytes_to_bits P) 128))).s0 <<< 64)
              ||| (absorb_rate s (bits_to_int (pad (bytes_to_bits P) 128))).s1
            = ((s.s0 <<< 64) ||| s.s1) ^^^ bits_to_int (pad (bytes_to_bits P) 128) :=
          combine_xor hs.2.1 hpadlt
        rw [hRxor, int128_getD hi16, int128_getD hi16, byte_xor]
        have hpb : ((bits_to_int (pad (bytes_to_bits P) 128) >>> (8 * (15 - i))) &&& 255)
            = P[i] := by
          have h1 : (int128_to_bytes (bits_to_int (pad (bytes_to_bits P) 128))).getD i 0
              = (bits_to_int (pad (bytes_to_bits P) 128) >>> (8 * (15 - i))) &&& 255 :=
            int128_getD hi16
          rw [hpadbytes] at h1
          rw [← h1, List.getD_eq_getElem _ _ (by
            simp only [List.length_append, List.length_cons, List.length_replicate]
            omega), List.getElem_append_left hiP]
        rw [hpb]
        exact xor_cancel_left _ _
    rw [hPn]
    -- the decrypt-side padded-block integer equals the encrypt-side one
    have hstate : bytes_to_int_be P * 2 ^ (128 - 8 * P.length)
          + 2 ^ (127 - 8 * P.length)
        = bits_to_int (pad (bytes_to_bits P) 128) := by
      rw [hpadval]
    rw [hstate]
  · have hnil : P = [] := List.length_eq_zero.mp (by omega)
    subst hnil
    have h0b : ¬(0 < (bytes_to_bits ([] : List Nat)).length) := by
      decide
    simp only [if_neg h0b]
    show dec_blocks s (dec_parse ([] : List (List Nat)).flatten) = _
    rw [show ([] : List (List Nat)).flatten = [] from rfl, dec_parse_small (by decide)]
    show dec_last_step s [] = _
    have hval : dec_last_step s []
        = (absorb_rate s (bytes_to_int_be ([] : List Nat)
              * 2 ^ (128 - 8 * ([] : List Nat).length)
            + 2 ^ (127 - 8 * ([] : List Nat).length)), []) := rfl
    rw [hval]
    have h2 : bytes_to_int_be ([] : List Nat)
          * 2 ^ (128 - 8 * ([] : List Nat).length)
          + 2 ^ (127 - 8 * ([] : List Nat).length)
        = bits_to_int (pad (bytes_to_bits ([] : List Nat)) 128) := by
      rw [pad_int_val (by decide) (fun b hb => absurd hb (List.not_mem_nil b))]
    rw [h2]

lemma take16_valid {P : List Nat} (hv : ∀ b ∈ P, b < 256) :
    ∀ b ∈ P.take 16, b < 256 :=
  fun b hb => hv b (List.take_subset 16 P hb)

lemma dec_full_step_inverts {P : List Nat} (h : 16 ≤ P.length)
    (hv : ∀ b ∈ P, b < 256) {s : AState} (hs : wf s) :
    dec_full_step s
        (int128_to_bytes
          (((absorb_rate s (bits_to_int (bytes_to_bits (P.take 16)))).s0 <<< 64)
            ||| (absorb_rate s (bits_to_int (bytes_to_bits (P.take 16)))).s1))
      = (ascon_permutation (absorb_rate s (bits_to_int (bytes_to_bits (P.take 16)))) 8,
         P.take 16) := by
  have hsawf : wf (absorb_rate s (bits_to_int (bytes_to_bits (P.take 16)))) :=
    absorb_rate_wf hs _
  have hbIntlt : bits_to_int (bytes_to_bits (P.take 16)) < 2 ^ 128 := by
    have hb := bits_to_int_lt (bytes_to_bits (P.take 16))
    rw [bytes_to_bits_take_len h] at hb
    exact hb
  unfold dec_full_step
  dsimp only
  rw [int128_to_bytes_lt (or64_lt hsawf.1 hsawf.2.1), hi64 hsawf.1 hsawf.2.1,
    lo64 hsawf.2.1]
  have h1 : (⟨(absorb_rate s (bits_to_int (bytes_to_bits (P.take 16)))).s0,
      (absorb_rate s (bits_to_int (bytes_to_bits (P.take 16)))).s1,
      s.s2, s.s3, s.s4⟩ : AState)
      = absorb_rate s (bits_to_int (bytes_to_bits (P.take 16))) := rfl
  have h2 : s.s0 ^^^ (absorb_rate s (bits_to_int (bytes_to_bits (P.take 16)))).s0
      = (bits_to_int (bytes_to_bits (P.take 16)) >>> 64) &&& MASK64 :=
    xor_cancel_left _ _
  have h3 : s.s1 ^^^ (absorb_rate s (bits_to_int (bytes_to_bits (P.take 16)))).s1
      = bits_to_int (bytes_to_bits (P.take 16)) &&& MASK64 :=
    xor_cancel_left _ _
  rw [h1, h2, h3, split128 hbIntlt, bytes_bits_val _ (take16_valid hv)]
  have htake : int128_to_bytes (bytes_to_int_be (P.take 16)) = P.take 16 := by
    have hlen : (P.take 16).length = 16 := by
      rw [List.length_take]
      omega
    have hh := int_to_bytes_of_be (P.take 16) (take16_valid hv)
    rw [hlen] at hh
    exact hh
  rw [htake]

lemma dec_enc : ∀ (n : Nat) (P : List Nat), P.length ≤ n → (∀ b ∈ P, b < 256) →
    ∀ s : AState, wf s →
      dec_blocks s (dec_parse (process_plaintext s (bytes_to_bits P)).2.flatten)
        = ((process_plaintext s (bytes_to_bits P)).1, P) := by
  intro n
  induction n with
  | zero =>
    intro P hP hv s hs
    exact dec_enc_small (by omega) hv hs
  | succ n ih =>
    intro P hP hv s hs
    rcases Nat.lt_or_ge P.length 16 with h | h
    · exact dec_enc_small h hv hs
    · rw [bytes_split_16 P, process_plaintext_cons (bytes_to_bits_take_len h) s]
      dsimp only
      rw [List.flatten_cons, dec_parse_append (int128_to_bytes_length _),
        dec_blocks_cons (dec_parse_ne_nil _), dec_full_step_inverts h hv hs]
      dsimp only
      have hih := ih (P.drop 16) (by rw [List.length_drop]; omega)
        (fun b hb => hv b (List.drop_subset 16 P hb))
        (ascon_permutation (absorb_rate s (bits_to_int (bytes_to_bits (P.take 16)))) 8)
        (ascon_permutation_wf (absorb_rate_wf hs _) 8)
      rw [hih]
      rw [List.take_append_drop]

/-- C1: the spec-modelled decrypt-and-verify operation (`ascon_aead128_dec`,
the exact algorithmic dual of `ascon_aead128_enc`, absent from the
repository sources) returns `some PT` on the ciphertext and tag that
`ascon_aead128_enc` produces, for every key, nonce, AD and byte-valued
plaintext. -/
theorem C1_round_trip (K N : Nat) (A P : List Nat) (hv : ∀ b ∈ P, b < 256) :
    ascon_aead128_dec K N A (ascon_aead128_enc K N A P).1.flatten
        (ascon_aead128_enc K N A P).2 = some P := by
  have hs : wf (process_associated_data ( ascon_initialize K N) (bytes_to_bits A)) :=
    process_associated_data_wf (ascon_initialize_wf K N) _
  have hmain := dec_enc P.length P (Nat.le_refl _) hv
    (process_associated_data ( ascon_initialize K N) (bytes_to_bits A)) hs
  show (if ct_compare
      (finalize (dec_blocks
        (process_associated_data ( ascon_initialize K N) (bytes_to_bits A))
        (dec_parse (process_plaintext
          (process_associated_data ( ascon_initialize K N) (bytes_to_bits A))
          (bytes_to_bits P)).2.flatten)).1 K)
      (finalize (process_plaintext
        (process_associated_data ( ascon_initialize K N) (bytes_to_bits A))
        (bytes_to_bits P)).1 K)
    then some (dec_blocks
        (process_associated_data ( ascon_initialize K N) (bytes_to_bits A))
        (dec_parse (process_plaintext
          (process_associated_data ( ascon_initialize K N) (bytes_to_bits A))
          (bytes_to_bits P)).2.flatten)).2
    else none) = some P
  rw [hmain]
  rw [ct_compare_self]
  rfl

/-- C1, witness at the zero key, zero nonce, empty AD and the one-byte
plaintext `0xAB`. -/
theorem C1_round_trip_witness :
    ascon_aead128_dec 0 0 [] (ascon_aead128_enc 0 0 [] [171]).1.flatten
        (ascon_aead128_enc 0 0 [] [171]).2 = some [171] :=
  C1_round_trip 0 0 [] [171] (by decide)

end Ascon
